import Mathlib

/-!
Verification of `pull.py` (git-sync): a shallow embedding in Lean 4 of the
script's pure decision logic — command construction, path manipulation,
output parsing and the ordering of the steps of a sync run — together with
theorems settling the specification's claims about it.

External effects (processes, the filesystem, git itself) are modelled as
parameters: the exit status of a spawned command, the text a git query
printed, and whether a path exists are inputs to the embedded functions,
which compute exactly what the Python code computes from them.
-/

/-! ## Character-level string utilities

Python string methods used by the script (`str.split`, `str.strip`,
`str.join`, `str.startswith`) are modelled on `List Char`, with `String`
wrappers at the boundary.  `splitChar` mirrors Python `s.split(sep)` for a
one-character separator: it never drops empty pieces and yields `[""]` on
the empty string. -/

/-- Python `s.split(sep)` for a single-character separator `sep`:
empty pieces are kept and the empty string yields the singleton `[[]]`. -/
def splitChar (sep : Char) : List Char → List (List Char)
  | [] => [[]]
  | c :: rest =>
    if c = sep then [] :: splitChar sep rest
    else
      match splitChar sep rest with
      | [] => [[c]]
      | h :: t => (c :: h) :: t

/-- Python `sep.join(pieces)` for a single-character separator. -/
def joinWith (sep : Char) : List (List Char) → List Char
  | [] => []
  | [p] => p
  | p :: ps => p ++ sep :: joinWith sep ps

/-- Python `" ".join(cmd)` on strings, as used by `execute_cmd`. -/
def joinSpace : List String → String
  | [] => ""
  | [c] => c
  | c :: rest => c ++ " " ++ joinSpace rest

/-- Python whitespace, as recognised by `str.strip()`:
space, tab, newline, carriage return, vertical tab, form feed.
The NUL character is *not* whitespace. -/
def pyIsSpace (c : Char) : Bool :=
  c = ' ' || c = '\t' || c = '\n' || c = '\x0d' || c = '\x0b' || c = '\x0c'

/-- Python `s.strip()`: drop leading and trailing whitespace. -/
def pyStripChars (cs : List Char) : List Char :=
  ((cs.dropWhile pyIsSpace).reverse.dropWhile pyIsSpace).reverse

/-- Python `s.strip()` on `String`. -/
def pyStrip (s : String) : String :=
  (pyStripChars s.toList).asString

/-- Python `line.split(sep, 1)[1]` for a one-character separator: everything
after the first occurrence of `sep`.  In Python this raises `IndexError`
when `sep` does not occur; the model returns `""` in that case (the script
only reaches this on `git log --name-status` file lines, which always
contain a tab). -/
def afterFirstChar (sep : Char) (cs : List Char) : List Char :=
  ((cs.dropWhile (fun c => c ≠ sep)).drop 1)

/-! ## `os.path` on POSIX paths

`os.path.split`, `os.path.splitext` and `os.path.join` translated from
CPython's `posixpath.py`, on `List Char`. -/

/-- `posixpath.split(p)`: split at the final `'/'`.  The head keeps no
trailing slashes unless it consists only of slashes; the tail is everything
after the final slash (and never contains one). -/
def splitPathChars (cs : List Char) : List Char × List Char :=
  let r := cs.reverse
  let tailR := r.takeWhile (fun c => c ≠ '/')
  let headR := r.dropWhile (fun c => c ≠ '/')
  let headFinal :=
    if headR.any (fun c => c ≠ '/') then (headR.dropWhile (fun c => c = '/')).reverse
    else headR.reverse
  (headFinal, tailR.reverse)

/-- `posixpath.splitext` specialised to inputs that contain no `'/'`
(the script applies it to the tail of `os.path.split`, which never does):
split at the final `'.'`, provided some earlier character of the name is
not a dot — a name consisting only of leading dots (such as `.bashrc`)
has no extension. -/
def splitExtChars (cs : List Char) : List Char × List Char :=
  let r := cs.reverse
  let extR := r.takeWhile (fun c => c ≠ '.')
  let restR := r.dropWhile (fun c => c ≠ '.')
  if restR.any (fun c => c ≠ '.') then
    ((restR.drop 1).reverse, '.' :: extR.reverse)
  else (cs, [])

/-- `posixpath.join(a, b)` for two components. -/
def joinPathChars (a b : List Char) : List Char :=
  if b.head? = some '/' then b
  else if a = [] ∨ a.getLast? = some '/' then a ++ b
  else a ++ '/' :: b

/-! ## The timestamp token and the backup name

`move_files` computes `ts = datetime.datetime.now().strftime('__%Y%m%d%H%M%S')`
and builds `new_file_name = os.path.join(path_head, ts.join(os.path.splitext(path_tail)))`. -/

/-- Zero-pad the decimal representation of `n` to width `w`. -/
def padNat (w n : Nat) : String :=
  let s := toString n
  String.mk (List.replicate (w - s.length) '0') ++ s

/-- `datetime.now().strftime('__%Y%m%d%H%M%S')` for the given clock reading. -/
def strftimeToken (year month day hour minute second : Nat) : String :=
  "__" ++ padNat 4 year ++ padNat 2 month ++ padNat 2 day ++
    padNat 2 hour ++ padNat 2 minute ++ padNat 2 second

/-- The backup name computed by `GitSync.move_files` for file `f` with
timestamp token `ts`:
`path_head, path_tail = os.path.split(f)`;
`path_tail = ts.join(os.path.splitext(path_tail))`;
`new_file_name = os.path.join(path_head, path_tail)`. -/
def moveFileName (ts f : String) : String :=
  let ph := (splitPathChars f.toList).1
  let pt := (splitPathChars f.toList).2
  let root := (splitExtChars pt).1
  let ext := (splitExtChars pt).2
  (joinPathChars ph (root ++ ts.toList ++ ext)).asString

/-- `GitSync.move_files`: each listed file that exists is renamed to its
backup name; files that do not exist are skipped.  Returns the list of
performed renames `(original, backup)` in order.  (The Python code calls
`datetime.now()` once per file; the runs modelled here take a single
timestamp token `ts` for the run.) -/
def move_files (exists_ : String → Bool) (ts : String) (files : List String) :
    List (String × String) :=
  (files.filter (fun f => exists_ f)).map (fun f => (f, moveFileName ts f))

/-! ## Command execution

`execute_cmd(cmd)` runs `os.system(" ".join(cmd))`.  `os.system` returns
the command's exit status and raises no exception when that status is
nonzero; the returned status is discarded.  The surrounding
`try/except` re-raises only exceptions raised by `os.system` itself.
The model takes the operating system as a function `osRun` from the
joined command line to its exit status. -/

/-- `execute_cmd`: join the command with spaces, run it through the shell,
discard the exit status, and return successfully.  An `Except.error` could
only arise from `os.system` itself raising, which the status of the spawned
command never causes. -/
def execute_cmd (osRun : String → Int) (cmd : List String) : Except String Unit :=
  let _ := osRun (joinSpace cmd)
  Except.ok ()

/-! ## The git command lines the script builds -/

/-- The argument list of `GitSync.merge`'s git invocation.  The source has
a strategy-option argument commented out between `'merge'` and
`'--no-edit'`, so none is passed. -/
def mergeCmd (branch : String) : List String :=
  ["git",
   "-c", "user.email=archive@stsci.edu",
   "-c", "user.name=git-sync",
   "merge",
   "--no-edit",
   "origin/" ++ branch]

/-- `GitSync.update_remotes`: `git fetch`. -/
def fetchCmd : List String := ["git", "fetch"]

/-- `GitSync.init_repo`: `git clone --branch <branch> <url> <dir>`. -/
def cloneCmd (git_url branch repo_dir : String) : List String :=
  ["git", "clone", "--branch", branch, git_url, repo_dir]

/-- The checkout command `restore_deleted_files` issues for one file. -/
def checkoutCmd (branch f : String) : List String :=
  ["git", "checkout", "origin/" ++ branch, "--", f]

/-! ## Restoring locally deleted files

`restore_deleted_files` reads `git ls-files --deleted -z` (with
`cwd=self.repo_dir`), strips the output, splits it on NUL, and for each
piece runs `execute_cmd(['git', 'checkout', 'origin/<branch>', '--', f])`
inside `try/except`: success logs a debug line, an exception logs a
warning. -/

/-- A line of the script's log, with its severity. -/
inductive LogEntry where
  | info (msg : String)
  | debug (msg : String)
  | warning (msg : String)
deriving DecidableEq, Repr

/-- The list of files `restore_deleted_files` iterates over, computed from
the raw output of `git ls-files --deleted -z`:
`output.decode().strip().split('\0')`. -/
def deletedFilesList (output : String) : List String :=
  (splitChar '\x00' (pyStrip output).toList).map List.asString

/-- The checkout invocations `restore_deleted_files` performs, one per
piece of the split output — including the empty piece the split yields
when the output is empty. -/
def restoreCheckoutCmds (branch output : String) : List (List String) :=
  (deletedFilesList output).map (fun f => checkoutCmd branch f)

/-- The log `restore_deleted_files` produces.  `osRun` gives each spawned
command's exit status.  The `try` branch matches on the result of
`execute_cmd`; since `execute_cmd` discards the exit status and returns
`Except.ok` for every `osRun`, the `warning` branch is reachable only
through an exception from `os.system` itself, never through a failing
checkout. -/
def restore_deleted_files (osRun : String → Int) (branch output : String) :
    List LogEntry :=
  LogEntry.info "Restoring locally deleted files..." ::
  (deletedFilesList output).map (fun f =>
    match execute_cmd osRun (checkoutCmd branch f) with
    | Except.ok _ => LogEntry.debug ("Restored " ++ f)
    | Except.error _ => LogEntry.warning (f ++ " may not longer exist upstream"))

/-! ## `os.path.relpath`

`find_upstream_updates` applies `os.path.relpath(p, self.repo_dir)` to each
path read from `git log --name-status`.  `relpath` makes both arguments
absolute against the process working directory and recombines them.  The
model represents the working directory as a list of path components
(absolute and already normalised, as `os.getcwd()` returns), and a path
component as a `List Char`. -/

/-- `posixpath.normpath`'s `..`-resolution on an absolute component list:
each `..` pops the previous component (at the root it is dropped). -/
def normUp (comps : List (List Char)) : List (List Char) :=
  comps.foldl (fun acc c => if c = ['.', '.'] then acc.dropLast else acc ++ [c]) []

/-- `posixpath.abspath(p)` as a component list: split `p` on `/`, drop
empty and `.` components, prepend the working directory unless `p` is
absolute, and resolve `..`. -/
def absComponents (cwd : List (List Char)) (p : List Char) : List (List Char) :=
  let comps := (splitChar '/' p).filter (fun c => ¬ (c = [] ∨ c = ['.']))
  if p.head? = some '/' then normUp comps else normUp (cwd ++ comps)

/-- Length of the longest common component run, as
`os.path.commonprefix([start_list, path_list])` computes it. -/
def commonLen : List (List Char) → List (List Char) → Nat
  | a :: as_, b :: bs => if a = b then commonLen as_ bs + 1 else 0
  | _, _ => 0

/-- `posixpath.relpath(path, start)` relative to working directory `cwd`. -/
def relpathChars (cwd : List (List Char)) (path start : List Char) : List Char :=
  let pl := absComponents cwd path
  let sl := absComponents cwd start
  let i := commonLen sl pl
  let rel := List.replicate (sl.length - i) ['.', '.'] ++ pl.drop i
  if rel = [] then ['.'] else joinWith '/' rel

/-! ## Enumerating upstream and local changes -/

/-- `GitSync.find_upstream_updates`'s inner `check_upstream(m)`, applied to
the raw text of `git log ..origin/<branch> --oneline --name-status`
(run with `cwd=self.repo_dir`): keep the lines starting with the status
letter `m`, take the part after the first tab, and pass it through
`os.path.relpath(·, self.repo_dir)`. -/
def check_upstream (m : Char) (output : String) (cwd : List (List Char))
    (repo_dir : String) : List String :=
  ((splitChar '\n' output.toList).filter (fun l => l.head? = some m)).map
    (fun l => (relpathChars cwd (afterFirstChar '\t' l) repo_dir.toList).asString)

/-- `GitSync.find_upstream_updates(mode)`: dispatch on the mode letter;
any other mode raises. -/
def find_upstream_updates (mode : Char) (output : String)
    (cwd : List (List Char)) (repo_dir : String) : Except String (List String) :=
  if mode = 'A' then Except.ok (check_upstream 'A' output cwd repo_dir)
  else if mode = 'M' then Except.ok (check_upstream 'M' output cwd repo_dir)
  else Except.error "mode must be either A or M"

/-- `GitSync.find_untracked_local_files`: the nonempty lines of
`git ls-files --others --exclude-standard`. -/
def find_untracked_local_files (output : String) : List String :=
  ((splitChar '\n' output.toList).filter (fun l => l.length > 0)).map List.asString

/-- The tracked files `find_mofified_local_files` iterates over: the
nonempty lines of `git ls-tree -r <branch> --name-only`. -/
def trackedFilesList (ls_tree_output : String) : List String :=
  ((splitChar '\n' ls_tree_output.toList).filter (fun l => l.length > 0)).map
    List.asString

/-- `GitSync.find_mofified_local_files` (name as in the source): a tracked
file is reported modified when `git diff --exit-code <f>` exits nonzero
(`diffExit` gives that status). -/
def find_mofified_local_files (ls_tree_output : String) (diffExit : String → Int) :
    List String :=
  (trackedFilesList ls_tree_output).filter (fun f => diffExit f ≠ 0)

/-! ## The move list of `prepare_clone`

The source computes the move list in two consecutive assignments — the
first (files modified on both sides) is immediately overwritten by the
second (files modified locally only) — and then extends it with the
untracked local files that upstream newly added.  The shadowed `let`
mirrors the overwritten assignment. -/

set_option linter.unusedVariables false in
/-- The `files_to_move` list of `GitSync.prepare_clone`, from the four
enumerations it queries. -/
def files_to_move (modified_local modified_upstream new_upstream
    untracked_local : List String) : List String :=
  let ftm := modified_local.filter (fun f => f ∈ modified_upstream)
  let ftm := modified_local.filter (fun f => f ∉ modified_upstream)
  ftm ++ untracked_local.filter (fun f => f ∈ new_upstream)

/-! ## The sync run as a trace of events

`GitSync.sync` either clones (when the local path does not exist) or
changes the process working directory to the local path and runs fetch,
`prepare_clone`, and merge in order.  The model records every externally
visible action as an event:

* `Step.chdir` — `os.chdir`;
* `Step.shell` — a command line passed to the shell by `os.system` or
  `subprocess.Popen(..., shell=True)`, which inherits the process working
  directory (no per-command directory argument exists for these);
* `Step.checkedOutput` — `subprocess.check_output(args, cwd=...)`, which
  passes the directory explicitly;
* `Step.move` — `shutil.move(src, dst)`.

The environment `Env` supplies everything the run reads from the outside
world: whether the path exists, the text each git query printed, each
file's diff status and existence, and the timestamp token of the run. -/

/-- One externally visible action of a sync run. -/
inductive Step where
  | chdir (dir : String)
  | shell (cmdline : String)
  | checkedOutput (args : List String) (cwd : String)
  | move (src dst : String)
deriving DecidableEq, Repr

/-- The outside world as a sync run observes it. -/
structure Env where
  repo_exists : Bool
  git_url : String
  branch : String
  repo_dir : String
  /-- The process working directory after `os.chdir(repo_dir)`, as an
  absolute normalised component list (what `os.getcwd()` reports). -/
  cwd : List (List Char)
  /-- Output of `git log ..origin/<branch> --oneline --name-status`. -/
  log_output : String
  /-- Output of `git ls-tree -r <branch> --name-only`. -/
  ls_tree_output : String
  /-- Output of `git ls-files --others --exclude-standard`. -/
  untracked_output : String
  /-- Output of `git ls-files --deleted -z`. -/
  deleted_output : String
  /-- Exit status of `git diff --exit-code <f>` per file. -/
  diffExit : String → Int
  /-- `os.path.exists` per path. -/
  fileExists : String → Bool
  /-- The `strftime` token of the run. -/
  ts : String

/-- The command line of the untracked-files query
(`Popen(['git ls-files --others --exclude-standard'], shell=True)`). -/
def untrackedQueryLine : String := "git ls-files --others --exclude-standard"

/-- The command line of the tracked-files query
(`Popen(['git ls-tree -r <branch> --name-only'], shell=True)`). -/
def lsTreeQueryLine (branch : String) : String :=
  "git ls-tree -r " ++ branch ++ " --name-only"

/-- The command line of the per-file diff probe
(`os.system('git diff --exit-code <f>')`). -/
def diffProbeLine (f : String) : String := "git diff --exit-code " ++ f

/-- The argument list of the upstream-log query
(`check_output(['git', 'log', '..origin/<branch>', '--oneline', '--name-status'], cwd=repo_dir)`). -/
def logQueryArgs (branch : String) : List String :=
  ["git", "log", "..origin/" ++ branch, "--oneline", "--name-status"]

/-- The argument list of the deleted-files query
(`check_output(['git', 'ls-files', '--deleted', '-z'], cwd=repo_dir)`). -/
def deletedQueryArgs : List String := ["git", "ls-files", "--deleted", "-z"]

/-- The events of `GitSync.prepare_clone`: the two upstream-log queries
(modes `'A'` then `'M'`), the tracked-files query and one diff probe per
tracked file, the untracked-files query, the renames `move_files`
performs on the computed move list, and the events of
`restore_deleted_files` (deleted-files query, then one checkout per
piece of its split output). -/
def prepareCloneEvents (e : Env) : List Step :=
  let new_upstream := check_upstream 'A' e.log_output e.cwd e.repo_dir
  let modified_upstream := check_upstream 'M' e.log_output e.cwd e.repo_dir
  let modified_local := find_mofified_local_files e.ls_tree_output e.diffExit
  let untracked_local := find_untracked_local_files e.untracked_output
  let ftm := files_to_move modified_local modified_upstream new_upstream untracked_local
  Step.checkedOutput (logQueryArgs e.branch) e.repo_dir ::
  Step.checkedOutput (logQueryArgs e.branch) e.repo_dir ::
  Step.shell (lsTreeQueryLine e.branch) ::
  (trackedFilesList e.ls_tree_output).map (fun f => Step.shell (diffProbeLine f)) ++
  Step.shell untrackedQueryLine ::
  (move_files e.fileExists e.ts ftm).map (fun pr => Step.move pr.1 pr.2) ++
  Step.checkedOutput deletedQueryArgs e.repo_dir ::
  (deletedFilesList e.deleted_output).map
    (fun f => Step.shell (joinSpace (checkoutCmd e.branch f)))

/-- The event trace of `GitSync.sync`: clone when the local path does not
exist; otherwise `os.chdir(repo_dir)`, then `update_remotes` (git fetch),
then `prepare_clone`, then `merge`. -/
def syncTrace (e : Env) : List Step :=
  if ¬ e.repo_exists then
    [Step.shell (joinSpace (cloneCmd e.git_url e.branch e.repo_dir))]
  else
    Step.chdir e.repo_dir ::
    Step.shell (joinSpace fetchCmd) ::
    prepareCloneEvents e ++
    [Step.shell (joinSpace (mergeCmd e.branch))]

/-- The word after the first space of a shell line: for the git
invocations the script builds, the git subcommand.  The branch and file
names spliced into a line never change it, because they appear only after
the second space. -/
def secondWord (s : String) : String :=
  ((splitChar ' ' s.toList).drop 1).headD [] |>.asString

/-- Events a sync run may emit during the conflict-avoidance step
(`prepare_clone`): upstream-log and deleted-files queries with an explicit
directory, the local-file queries (`git ls-tree`, `git diff`,
`git ls-files`), per-file checkouts, and renames.  The fetch, merge and
clone command lines (subcommands `fetch`, `-c`, `clone`) match none of
these shapes. -/
def isConflictAvoidanceEvent : Step → Bool
  | Step.move _ _ => true
  | Step.checkedOutput args _ =>
      args.take 2 == ["git", "log"] || args.take 2 == ["git", "ls-files"]
  | Step.shell s =>
      secondWord s == "ls-tree" || secondWord s == "diff" ||
      secondWord s == "ls-files" || secondWord s == "checkout"
  | Step.chdir _ => false

/-! ## Specification-side definitions

Two definitions follow the specification's words rather than the source,
for comparison against the source-derived functions. -/

/-- An argument that would request a conflict-resolution strategy in
`git merge`: a strategy option (`-X<opt>` / `-X <opt>`, e.g. `-Xtheirs`
for "upstream wins" when merging `origin/<branch>` into the local branch)
or a strategy flag (`--strategy`, `--strategy-option`, or their `=`-forms).
Written from the spec's phrase "a conflict-resolution strategy that
prefers upstream content"; used to check whether the merge invocation
contains any such argument. -/
def upstreamWinsStrategyArg (a : String) : Bool :=
  decide (a.toList.take 2 = ['-', 'X']) ||
  decide (a.toList.take 10 = "--strategy".toList)

/-- Written from the spec's words for the upstream change enumeration:
"the set of repository-relative paths touched with the matching status
letter in the commit range" — the lines of the log output that start with
the status letter, each contributing the path after its first tab,
unchanged.  Compared with the source-derived `check_upstream`, which also
passes each path through `os.path.relpath`. -/
def upstreamPathsSpec (m : Char) (output : String) : List String :=
  ((splitChar '\n' output.toList).filter (fun l => l.head? = some m)).map
    (fun l => (afterFirstChar '\t' l).asString)

/-! ## Lemmas about the string toolkit -/

theorem splitChar_ne_nil (sep : Char) (l : List Char) : splitChar sep l ≠ [] := by
  induction l with
  | nil => simp [splitChar]
  | cons c rest ih =>
    simp only [splitChar]
    split
    · simp
    · cases h : splitChar sep rest with
      | nil => simp
      | cons a as => simp

theorem splitChar_cons_sep (sep : Char) (l : List Char) :
    splitChar sep (sep :: l) = [] :: splitChar sep l := by
  simp [splitChar]

theorem splitChar_cons_ne (sep c : Char) (l : List Char) (h : c ≠ sep) :
    splitChar sep (c :: l) =
      (c :: (splitChar sep l).headD []) :: (splitChar sep l).tail := by
  simp only [splitChar, if_neg h]
  cases hs : splitChar sep l with
  | nil => exact absurd hs (splitChar_ne_nil sep l)
  | cons a as => simp

theorem splitChar_append_no_sep (sep : Char) (l1 l2 : List Char)
    (h : ∀ c ∈ l1, c ≠ sep) :
    splitChar sep (l1 ++ l2) =
      (l1 ++ (splitChar sep l2).headD []) :: (splitChar sep l2).tail := by
  induction l1 with
  | nil =>
    cases hs : splitChar sep l2 with
    | nil => exact absurd hs (splitChar_ne_nil sep l2)
    | cons a as => simp [hs]
  | cons c cs ih =>
    have hc : c ≠ sep := h c (List.mem_cons_self c cs)
    have hcs : ∀ d ∈ cs, d ≠ sep := fun d hd => h d (List.mem_cons_of_mem c hd)
    rw [List.cons_append, splitChar_cons_ne sep c (cs ++ l2) hc, ih hcs]
    simp

theorem splitChar_append_sep (sep : Char) (l1 l2 : List Char)
    (h : ∀ c ∈ l1, c ≠ sep) :
    splitChar sep (l1 ++ sep :: l2) = l1 :: splitChar sep l2 := by
  rw [splitChar_append_no_sep sep l1 (sep :: l2) h, splitChar_cons_sep]
  simp

theorem joinWith_splitChar (sep : Char) (l : List Char) :
    joinWith sep (splitChar sep l) = l := by
  induction l with
  | nil => rfl
  | cons c rest ih =>
    by_cases hc : c = sep
    · rw [hc, splitChar_cons_sep]
      cases hs : splitChar sep rest with
      | nil => exact absurd hs (splitChar_ne_nil sep rest)
      | cons a as =>
        rw [hs] at ih
        simpa [joinWith] using ih
    · rw [splitChar_cons_ne sep c rest hc]
      cases hs : splitChar sep rest with
      | nil => exact absurd hs (splitChar_ne_nil sep rest)
      | cons a as =>
        rw [hs] at ih
        cases as with
        | nil =>
          simp only [joinWith] at ih ⊢
          simpa using congrArg (c :: ·) ih
        | cons b bs =>
          simp only [joinWith] at ih ⊢
          simpa using congrArg (c :: ·) ih

theorem takeWhile_all {p : Char → Bool} {l : List Char}
    (h : ∀ c ∈ l, p c = true) : l.takeWhile p = l := by
  induction l with
  | nil => rfl
  | cons c cs ih =>
    rw [List.takeWhile_cons, h c (List.mem_cons_self c cs)]
    simp [ih fun d hd => h d (List.mem_cons_of_mem c hd)]

theorem dropWhile_all {p : Char → Bool} {l : List Char}
    (h : ∀ c ∈ l, p c = true) : l.dropWhile p = [] := by
  induction l with
  | nil => rfl
  | cons c cs ih =>
    rw [List.dropWhile_cons, h c (List.mem_cons_self c cs)]
    simp [ih fun d hd => h d (List.mem_cons_of_mem c hd)]

theorem head?_dropWhile_false {p : Char → Bool} (l : List Char) {c : Char}
    (h : (l.dropWhile p).head? = some c) : p c = false := by
  induction l with
  | nil => simp at h
  | cons a as ih =>
    rw [List.dropWhile_cons] at h
    by_cases hpa : p a = true
    · rw [if_pos hpa] at h
      exact ih h
    · rw [if_neg hpa] at h
      simp only [List.head?_cons, Option.some.injEq] at h
      subst h
      exact Bool.not_eq_true _ |>.mp hpa

/-! ## Claims about the move list, command execution, restore, and merge -/

/-- C1: the claim requires every locally modified tracked file to be in the
move list unconditionally, in particular files also modified upstream.  In
`prepare_clone` the second `files_to_move` assignment overwrites the first,
keeping only locally modified files *not* modified upstream: a file
modified on both sides is excluded and is not renamed. -/
theorem c1_both_modified_file_not_in_move_list :
    files_to_move ["a.txt"] ["a.txt"] [] [] = [] ∧
    "a.txt" ∉ files_to_move ["a.txt"] ["a.txt"] [] [] := by
  decide

/-- C3: the claim says the command-execution facility signals failure on a
nonzero exit status.  `execute_cmd` passes `" ".join(cmd)` to `os.system`
and discards the returned status, so it reports success for every exit
status of the spawned process — including a command that exits 1. -/
theorem c3_execute_cmd_ignores_exit_status :
    (∀ (osRun : String → Int) (cmd : List String),
        execute_cmd osRun cmd = Except.ok ()) ∧
    execute_cmd (fun _ => 1) ["false"] = Except.ok () :=
  ⟨fun _ _ => rfl, rfl⟩

/-- C5: the claim says that when restoring a deleted file fails because the
file is gone upstream, the failure is caught and logged as a per-file
warning.  Because `execute_cmd` discards the checkout's exit status, the
failure is invisible: with `git checkout` exiting 1 for `gone.txt`, the run
logs the success-path debug line and produces no warning at all (it does
continue). -/
theorem c5_failed_restore_logged_as_success :
    restore_deleted_files (fun _ => 1) "main" "gone.txt" =
      [LogEntry.info "Restoring locally deleted files...",
       LogEntry.debug "Restored gone.txt"] ∧
    ∀ m, LogEntry.warning m ∉ restore_deleted_files (fun _ => 1) "main" "gone.txt" := by
  constructor
  · decide
  · intro m
    have h : restore_deleted_files (fun _ => 1) "main" "gone.txt" =
        [LogEntry.info "Restoring locally deleted files...",
         LogEntry.debug "Restored gone.txt"] := by decide
    rw [h]
    simp

/-- C10: with no locally deleted files the deleted-files query prints
nothing, and `''.strip().split('\0')` is `['']`: the restore step performs
exactly one checkout, whose path argument is the empty string. -/
theorem c10_empty_deleted_output_one_checkout :
    deletedFilesList "" = [""] ∧
    restoreCheckoutCmds "main" "" =
      [["git", "checkout", "origin/main", "--", ""]] := by
  decide

/-- C8: `move_files` renames only paths that exist at decision time: a
listed path that does not exist appears in no performed rename, and every
listed path that does exist is still processed (it appears among the
performed renames). -/
theorem c8_move_files_skips_missing_paths :
    ∀ (exists_ : String → Bool) (ts : String) (files : List String),
      (∀ f, exists_ f = false →
        f ∉ (move_files exists_ ts files).map Prod.fst) ∧
      (∀ f ∈ files, exists_ f = true →
        f ∈ (move_files exists_ ts files).map Prod.fst) := by
  intro exists_ ts files
  have hm : (move_files exists_ ts files).map Prod.fst =
      files.filter (fun f => exists_ f) := by
    simp [move_files, List.map_map, Function.comp_def]
  constructor
  · intro f hf hmem
    rw [hm] at hmem
    have := (List.mem_filter.mp hmem).2
    rw [hf] at this
    exact Bool.false_ne_true this
  · intro f hf hex
    rw [hm]
    exact List.mem_filter.mpr ⟨hf, hex⟩

/-- Witness for C8 at a concrete run: `ghost` does not exist and is not
renamed. -/
theorem c8_witness :
    (fun f => decide (f ≠ "ghost")) "ghost" = false ∧
    "ghost" ∉ (move_files (fun f => decide (f ≠ "ghost")) "__20240102030405"
        ["a.txt", "ghost", "b.txt"]).map Prod.fst :=
  ⟨by decide,
   (c8_move_files_skips_missing_paths (fun f => decide (f ≠ "ghost"))
      "__20240102030405" ["a.txt", "ghost", "b.txt"]).1 "ghost" (by decide)⟩

/-- C2 counterexample: the claim says the merge uses a conflict-resolution
strategy under which upstream wins.  The merge invocation the code builds
for branch `main` contains no strategy argument at all — the `-Xours` in
the source is commented out. -/
theorem c2_no_strategy_option_in_merge :
    (mergeCmd "main").any upstreamWinsStrategyArg = false := by
  decide

/-- C2 amended: for every branch, the merge command merges
`origin/<branch>` non-interactively (`--no-edit`, no editor prompt) under
the fixed tool identity `user.name=git-sync`,
`user.email=archive@stsci.edu`, but passes no conflict-resolution strategy
argument: git's default merge strategy applies, so conflicting hunks are
not automatically resolved in upstream's favour. -/
theorem c2_amended_merge_nonInteractive_fixed_identity_no_strategy
    (b : String) :
    mergeCmd b =
      ["git", "-c", "user.email=archive@stsci.edu", "-c",
       "user.name=git-sync", "merge", "--no-edit", "origin/" ++ b] ∧
    "--no-edit" ∈ mergeCmd b ∧
    "user.name=git-sync" ∈ mergeCmd b ∧
    "user.email=archive@stsci.edu" ∈ mergeCmd b ∧
    (mergeCmd b).any upstreamWinsStrategyArg = false := by
  have hb : upstreamWinsStrategyArg ("origin/" ++ b) = false := by
    have hd : ("origin/" ++ b).toList = 'o' :: ("rigin/".toList ++ b.toList) := by
      show ("origin/" ++ b).data = 'o' :: ("rigin/".data ++ b.data)
      rw [String.data_append]
      rfl
    unfold upstreamWinsStrategyArg
    rw [hd]
    simp
  refine ⟨rfl, by simp [mergeCmd], by simp [mergeCmd], by simp [mergeCmd], ?_⟩
  simp only [mergeCmd, List.any_cons, List.any_nil, hb]
  decide

/-! ## Lemmas about the trace model -/

theorem splitChar_no_sep (sep : Char) (l : List Char)
    (h : ∀ c ∈ l, c ≠ sep) : splitChar sep l = [l] := by
  have := splitChar_append_no_sep sep l [] h
  simpa [splitChar] using this

theorem secondWord_eq_of_toList (s : String) (w1 w2 rest : List Char)
    (hs : s.toList = w1 ++ ' ' :: (w2 ++ ' ' :: rest))
    (h1 : ∀ c ∈ w1, c ≠ ' ') (h2 : ∀ c ∈ w2, c ≠ ' ') :
    secondWord s = w2.asString := by
  unfold secondWord
  rw [hs, splitChar_append_sep ' ' w1 (w2 ++ ' ' :: rest) h1,
    splitChar_append_sep ' ' w2 rest h2]
  simp

theorem secondWord_lsTree (b : String) :
    secondWord (lsTreeQueryLine b) = "ls-tree" := by
  apply secondWord_eq_of_toList _ "git".toList "ls-tree".toList
      ("-r ".toList ++ b.toList ++ " --name-only".toList)
  · show (("git ls-tree -r " ++ b) ++ " --name-only").data = _
    rw [String.data_append, String.data_append]
    rfl
  · decide
  · decide

theorem secondWord_diffProbe (f : String) :
    secondWord (diffProbeLine f) = "diff" := by
  apply secondWord_eq_of_toList _ "git".toList "diff".toList
      ("--exit-code ".toList ++ f.toList)
  · show ("git diff --exit-code " ++ f).data = _
    rw [String.data_append]
    rfl
  · decide
  · decide

theorem secondWord_checkout (b f : String) :
    secondWord (joinSpace (checkoutCmd b f)) = "checkout" := by
  apply secondWord_eq_of_toList _ "git".toList "checkout".toList
      ((("origin/" ++ b) ++ " " ++ ("--" ++ " " ++ f)).toList)
  · show ("git" ++ " " ++ ("checkout" ++ " " ++
      (("origin/" ++ b) ++ " " ++ ("--" ++ " " ++ f)))).data = _
    simp only [String.data_append]
    rfl
  · decide
  · decide

theorem secondWord_merge (b : String) :
    secondWord (joinSpace (mergeCmd b)) = "-c" := by
  apply secondWord_eq_of_toList _ "git".toList "-c".toList
      (("user.email=archive@stsci.edu" ++ " " ++ ("-c" ++ " " ++
        ("user.name=git-sync" ++ " " ++ ("merge" ++ " " ++
          ("--no-edit" ++ " " ++ ("origin/" ++ b)))))).toList)
  · show ("git" ++ " " ++ ("-c" ++ " " ++
      ("user.email=archive@stsci.edu" ++ " " ++ ("-c" ++ " " ++
        ("user.name=git-sync" ++ " " ++ ("merge" ++ " " ++
          ("--no-edit" ++ " " ++ ("origin/" ++ b)))))))).data = _
    simp only [String.data_append]
    rfl
  · decide
  · decide

theorem isCA_lsTree (b : String) :
    isConflictAvoidanceEvent (Step.shell (lsTreeQueryLine b)) = true := by
  simp [isConflictAvoidanceEvent, secondWord_lsTree]

theorem isCA_diffProbe (f : String) :
    isConflictAvoidanceEvent (Step.shell (diffProbeLine f)) = true := by
  simp [isConflictAvoidanceEvent, secondWord_diffProbe]

theorem isCA_checkout (b f : String) :
    isConflictAvoidanceEvent (Step.shell (joinSpace (checkoutCmd b f))) = true := by
  simp [isConflictAvoidanceEvent, secondWord_checkout]

theorem isCA_merge_false (b : String) :
    isConflictAvoidanceEvent (Step.shell (joinSpace (mergeCmd b))) = false := by
  simp [isConflictAvoidanceEvent, secondWord_merge]

theorem isCA_logQuery (b d : String) :
    isConflictAvoidanceEvent (Step.checkedOutput (logQueryArgs b) d) = true := by
  simp [isConflictAvoidanceEvent, logQueryArgs]

/-- Every event of `prepare_clone` has one of the seven shapes the method
produces. -/
theorem mem_prepareCloneEvents (e : Env) (ev : Step)
    (h : ev ∈ prepareCloneEvents e) :
    ev = Step.checkedOutput (logQueryArgs e.branch) e.repo_dir ∨
    ev = Step.shell (lsTreeQueryLine e.branch) ∨
    (∃ f, ev = Step.shell (diffProbeLine f)) ∨
    ev = Step.shell untrackedQueryLine ∨
    (∃ s d, ev = Step.move s d) ∨
    ev = Step.checkedOutput deletedQueryArgs e.repo_dir ∨
    (∃ f, ev = Step.shell (joinSpace (checkoutCmd e.branch f))) := by
  simp only [prepareCloneEvents, List.mem_cons, List.mem_append,
    List.mem_map] at h
  aesop

/-- Every event of `prepare_clone` is a conflict-avoidance event. -/
theorem prepareCloneEvents_all_CA (e : Env) :
    ∀ ev ∈ prepareCloneEvents e, isConflictAvoidanceEvent ev = true := by
  intro ev h
  rcases mem_prepareCloneEvents e ev h with
    h | h | ⟨f, h⟩ | h | ⟨s, d, h⟩ | h | ⟨f, h⟩ <;> subst h
  · exact isCA_logQuery e.branch e.repo_dir
  · exact isCA_lsTree e.branch
  · exact isCA_diffProbe f
  · decide
  · rfl
  · simp [isConflictAvoidanceEvent, deletedQueryArgs]
  · exact isCA_checkout e.branch f

/-! ## Claims about the order of the sync steps -/

/-- C6: when the local path is absent, the sync trace is exactly the clone
invocation (no fetch, conflict-avoidance or merge event); when it is
present, the trace is the chdir, then the fetch, then the
`prepare_clone` block — every event of which is a conflict-avoidance
event, and the fetch and merge lines are not — then the merge, strictly in
that order. -/
theorem c6_sync_step_order (e : Env) :
    (e.repo_exists = false →
      syncTrace e =
        [Step.shell (joinSpace (cloneCmd e.git_url e.branch e.repo_dir))]) ∧
    (e.repo_exists = true →
      syncTrace e =
        Step.chdir e.repo_dir ::
        Step.shell (joinSpace fetchCmd) ::
        prepareCloneEvents e ++
        [Step.shell (joinSpace (mergeCmd e.branch))] ∧
      (∀ ev ∈ prepareCloneEvents e, isConflictAvoidanceEvent ev = true) ∧
      isConflictAvoidanceEvent (Step.shell (joinSpace fetchCmd)) = false ∧
      isConflictAvoidanceEvent
        (Step.shell (joinSpace (mergeCmd e.branch))) = false) := by
  constructor
  · intro h
    simp [syncTrace, h]
  · intro h
    exact ⟨by simp [syncTrace, h], prepareCloneEvents_all_CA e,
      by decide, isCA_merge_false e.branch⟩

/-- Witness for C6: a fresh path yields exactly the clone event; an
existing path yields chdir, fetch, the conflict-avoidance block, merge. -/
theorem c6_witness :
    syncTrace ⟨false, "http://u/r.git", "main", "repo", [], "", "", "", "",
        fun _ => 0, fun _ => true, "__20240102030405"⟩ =
      [Step.shell (joinSpace (cloneCmd "http://u/r.git" "main" "repo"))] ∧
    syncTrace ⟨true, "http://u/r.git", "main", "repo", [], "", "", "", "",
        fun _ => 0, fun _ => true, "__20240102030405"⟩ =
      Step.chdir "repo" ::
      Step.shell (joinSpace fetchCmd) ::
      prepareCloneEvents ⟨true, "http://u/r.git", "main", "repo", [], "", "",
        "", "", fun _ => 0, fun _ => true, "__20240102030405"⟩ ++
      [Step.shell (joinSpace (mergeCmd "main"))] :=
  ⟨(c6_sync_step_order _).1 rfl, ((c6_sync_step_order _).2 rfl).1⟩

/-- C9: on an existing repository the first action is `os.chdir` to the
local path; no event afterwards restores or changes the working directory
again; and the fetch, merge, untracked-files query, tracked-files query
and every per-file diff probe are shell events — commands run through the
shell with no explicit per-command directory argument, so they depend on
the process working directory. -/
theorem c9_chdir_and_cwd_dependent_commands (e : Env)
    (h : e.repo_exists = true) :
    (syncTrace e).head? = some (Step.chdir e.repo_dir) ∧
    (∀ ev ∈ (syncTrace e).tail, ∀ d, ev ≠ Step.chdir d) ∧
    Step.shell (joinSpace fetchCmd) ∈ syncTrace e ∧
    Step.shell (joinSpace (mergeCmd e.branch)) ∈ syncTrace e ∧
    Step.shell untrackedQueryLine ∈ syncTrace e ∧
    Step.shell (lsTreeQueryLine e.branch) ∈ syncTrace e ∧
    (∀ f ∈ trackedFilesList e.ls_tree_output,
      Step.shell (diffProbeLine f) ∈ syncTrace e) := by
  have ht : syncTrace e =
      Step.chdir e.repo_dir ::
      Step.shell (joinSpace fetchCmd) ::
      prepareCloneEvents e ++
      [Step.shell (joinSpace (mergeCmd e.branch))] := by
    simp [syncTrace, h]
  have hdiff : ∀ f ∈ trackedFilesList e.ls_tree_output,
      Step.shell (diffProbeLine f) ∈ prepareCloneEvents e := by
    intro f hf
    simp only [prepareCloneEvents]
    exact List.mem_cons_of_mem _ (List.mem_cons_of_mem _ (List.mem_cons_of_mem _
      (List.mem_append_left _
        (List.mem_append_left _ (List.mem_map_of_mem _ hf)))))
  have huntracked : Step.shell untrackedQueryLine ∈ prepareCloneEvents e := by
    simp only [prepareCloneEvents]
    exact List.mem_cons_of_mem _ (List.mem_cons_of_mem _ (List.mem_cons_of_mem _
      (List.mem_append_left _
        (List.mem_append_right _ (List.mem_cons_self _ _)))))
  have hlstree : Step.shell (lsTreeQueryLine e.branch) ∈ prepareCloneEvents e := by
    simp only [prepareCloneEvents]
    exact List.mem_cons_of_mem _ (List.mem_cons_of_mem _ (List.mem_cons_self _ _))
  rw [ht]
  refine ⟨rfl, ?_, ?_, ?_, ?_, ?_, ?_⟩
  · intro ev hev d
    have hev' : ev ∈ Step.shell (joinSpace fetchCmd) ::
        prepareCloneEvents e ++ [Step.shell (joinSpace (mergeCmd e.branch))] := hev
    rcases List.mem_cons.mp hev' with hev1 | hev1
    · subst hev1; exact fun hc => Step.noConfusion hc
    · rcases List.mem_append.mp hev1 with hev2 | hev2
      · rcases mem_prepareCloneEvents e ev hev2 with
          hv | hv | ⟨f, hv⟩ | hv | ⟨s, d2, hv⟩ | hv | ⟨f, hv⟩ <;>
          subst hv <;> exact fun hc => Step.noConfusion hc
      · have hev3 : ev = Step.shell (joinSpace (mergeCmd e.branch)) := by
          simpa using hev2
        subst hev3; exact fun hc => Step.noConfusion hc
  · exact List.mem_cons_of_mem _ (List.mem_cons_self _ _)
  · exact List.mem_cons_of_mem _ (List.mem_cons_of_mem _
      (List.mem_append_right _ (List.mem_cons_self _ _)))
  · exact List.mem_cons_of_mem _ (List.mem_cons_of_mem _
      (List.mem_append_left _ huntracked))
  · exact List.mem_cons_of_mem _ (List.mem_cons_of_mem _
      (List.mem_append_left _ hlstree))
  · intro f hf
    exact List.mem_cons_of_mem _ (List.mem_cons_of_mem _
      (List.mem_append_left _ (hdiff f hf)))

/-- Witness for C9: the first event of a run on an existing repository is
the chdir to its path. -/
theorem c9_witness :
    (syncTrace ⟨true, "http://u/r.git", "main", "repo", [], "", "", "", "",
        fun _ => 0, fun _ => true, "__20240102030405"⟩).head? =
      some (Step.chdir "repo") :=
  (c9_chdir_and_cwd_dependent_commands _ rfl).1

/-! ## Lemmas about relpath, and the upstream enumeration claim -/

theorem normUp_foldl_no_up (l : List (List Char)) (acc : List (List Char))
    (h : ∀ c ∈ l, c ≠ ['.', '.']) :
    l.foldl (fun a c => if c = ['.', '.'] then a.dropLast else a ++ [c]) acc
      = acc ++ l := by
  induction l generalizing acc with
  | nil => simp
  | cons c cs ih =>
    have hc : c ≠ ['.', '.'] := h c (List.mem_cons_self c cs)
    simp only [List.foldl_cons, if_neg hc]
    rw [ih (acc ++ [c]) (fun d hd => h d (List.mem_cons_of_mem c hd))]
    simp

theorem normUp_no_up (l : List (List Char)) (h : ∀ c ∈ l, c ≠ ['.', '.']) :
    normUp l = l := by
  simpa using normUp_foldl_no_up l [] h

theorem commonLen_append (base x : List (List Char)) :
    commonLen base (base ++ x) = base.length := by
  induction base with
  | nil => cases x <;> simp [commonLen]
  | cons b bs ih => simp [commonLen, ih]

/-- `os.path.relpath(p, rd)` is the identity on a clean relative path `p`
(nonempty components, none of them `.` or `..`) when `rd` resolves to the
working directory itself. -/
theorem relpathChars_self (cwd : List (List Char)) (p rd : List Char)
    (hrd : absComponents cwd rd = cwd)
    (hup : ∀ c ∈ cwd, c ≠ ['.', '.'])
    (hp : ∀ pc ∈ splitChar '/' p, pc ≠ [] ∧ pc ≠ ['.'] ∧ pc ≠ ['.', '.']) :
    relpathChars cwd p rd = p := by
  have habs : ¬ p.head? = some '/' := by
    intro hh
    cases p with
    | nil => simp at hh
    | cons c cs =>
      simp only [List.head?_cons, Option.some.injEq] at hh
      subst hh
      have hmem : ([] : List Char) ∈ splitChar '/' ('/' :: cs) := by
        rw [splitChar_cons_sep]
        exact List.mem_cons_self _ _
      exact (hp [] hmem).1 rfl
  have hfilter : (splitChar '/' p).filter
      (fun c => ¬ (c = [] ∨ c = ['.'])) = splitChar '/' p := by
    rw [List.filter_eq_self]
    intro a ha
    rcases hp a ha with ⟨h1, h2, _⟩
    simp [h1, h2]
  have hpl : absComponents cwd p = cwd ++ splitChar '/' p := by
    simp only [absComponents]
    rw [hfilter, if_neg habs]
    apply normUp_no_up
    intro c hc
    rcases List.mem_append.mp hc with hc | hc
    · exact hup c hc
    · exact (hp c hc).2.2
  have hS : splitChar '/' p ≠ [] := splitChar_ne_nil '/' p
  simp only [relpathChars]
  rw [hpl, hrd, commonLen_append, Nat.sub_self, List.replicate_zero,
    List.nil_append, List.drop_left, if_neg hS, joinWith_splitChar]

/-- C7 counterexample: invoked with the relative local path `myrepo` (the
working directory being `/home/u/myrepo` after the chdir), the enumeration
passes the repo-relative path `foo.txt` through
`os.path.relpath(·, 'myrepo')` and returns `../foo.txt`, not the
repository-relative path the claim promises. -/
theorem c7_counterexample_relative_repo_dir :
    find_upstream_updates 'A' "abc123 update\nA\tfoo.txt"
        ["home".toList, "u".toList, "myrepo".toList] "myrepo" =
      Except.ok ["../foo.txt"] ∧
    upstreamPathsSpec 'A' "abc123 update\nA\tfoo.txt" = ["foo.txt"] ∧
    (["../foo.txt"] : List String) ≠ ["foo.txt"] :=
  ⟨rfl, rfl, by decide⟩

/-- C7 amended: for mode `A` or `M`, when the local path argument resolves
to the process working directory (as it does for an absolute path, or for
`.`, after `sync`'s chdir) and the touched paths are clean relative paths,
the enumeration returns exactly the paths named on the log lines with the
matching status letter — the path after the first tab of each such line. -/
theorem c7_amended_upstream_updates (m : Char) (out rd : String)
    (cwd : List (List Char))
    (hm : m = 'A' ∨ m = 'M')
    (hrd : absComponents cwd rd.toList = cwd)
    (hup : ∀ c ∈ cwd, c ≠ ['.', '.'])
    (hpaths : ∀ l ∈ (splitChar '\n' out.toList).filter
        (fun l => l.head? = some m),
      ∀ pc ∈ splitChar '/' (afterFirstChar '\t' l),
        pc ≠ [] ∧ pc ≠ ['.'] ∧ pc ≠ ['.', '.']) :
    find_upstream_updates m out cwd rd =
      Except.ok (upstreamPathsSpec m out) := by
  have hc : check_upstream m out cwd rd = upstreamPathsSpec m out := by
    unfold check_upstream upstreamPathsSpec
    apply List.map_congr_left
    intro l hl
    rw [relpathChars_self cwd (afterFirstChar '\t' l) rd.toList hrd hup
      (hpaths l hl)]
  rcases hm with hm | hm <;> subst hm <;> simp [find_upstream_updates, hc]

/-- Witness for C7 (amended) at a concrete run: absolute local path equal
to the working directory; the added file is reported repo-relative. -/
theorem c7_witness :
    find_upstream_updates 'A' "abc123 update\nA\tfoo.txt"
        ["home".toList, "u".toList, "myrepo".toList] "/home/u/myrepo" =
      Except.ok (upstreamPathsSpec 'A' "abc123 update\nA\tfoo.txt") :=
  c7_amended_upstream_updates 'A' "abc123 update\nA\tfoo.txt"
    "/home/u/myrepo" ["home".toList, "u".toList, "myrepo".toList]
    (Or.inl rfl) (by decide) (by decide) (by decide)

/-! ## Lemmas about the backup-name computation -/

theorem takeWhile_nil_of_all_false {p : Char → Bool} {l : List Char}
    (h : ∀ c ∈ l, p c = false) : l.takeWhile p = [] := by
  cases l with
  | nil => rfl
  | cons c cs =>
    rw [List.takeWhile_cons, h c (List.mem_cons_self c cs)]
    simp

theorem dropWhile_self_of_all_false {p : Char → Bool} {l : List Char}
    (h : ∀ c ∈ l, p c = false) : l.dropWhile p = l := by
  cases l with
  | nil => rfl
  | cons c cs =>
    rw [List.dropWhile_cons, h c (List.mem_cons_self c cs)]
    simp

theorem splitPath_tail_no_slash (cs : List Char) :
    ∀ c ∈ (splitPathChars cs).2, c ≠ '/' := by
  intro c hc
  have hc' : c ∈ (cs.reverse.takeWhile (fun c : Char => c ≠ '/')).reverse := hc
  rw [List.mem_reverse] at hc'
  have h2 := List.mem_takeWhile_imp hc'
  exact of_decide_eq_true h2

theorem splitPath_head_form (cs : List Char) :
    (splitPathChars cs).1 = [] ∨
    ((splitPathChars cs).1 ≠ [] ∧ ∀ c ∈ (splitPathChars cs).1, c = '/') ∨
    (∃ c, ((splitPathChars cs).1).getLast? = some c ∧ c ≠ '/') := by
  have h1 : (splitPathChars cs).1 =
      if (cs.reverse.dropWhile (fun c : Char => c ≠ '/')).any
          (fun c : Char => c ≠ '/') then
        ((cs.reverse.dropWhile (fun c : Char => c ≠ '/')).dropWhile
          (fun c : Char => c = '/')).reverse
      else (cs.reverse.dropWhile (fun c : Char => c ≠ '/')).reverse := rfl
  cases hany : (cs.reverse.dropWhile (fun c : Char => c ≠ '/')).any
      (fun c : Char => c ≠ '/') with
  | false =>
    rw [hany] at h1
    rw [if_neg Bool.false_ne_true] at h1
    have hall : ∀ c ∈ cs.reverse.dropWhile (fun c : Char => c ≠ '/'), c = '/' := by
      intro c hc
      have h2 := List.any_eq_false.mp hany c hc
      simpa using h2
    cases hr0 : cs.reverse.dropWhile (fun c : Char => c ≠ '/') with
    | nil =>
      left
      rw [h1, hr0]
      rfl
    | cons a rest =>
      right; left
      rw [h1, hr0]
      constructor
      · simp
      · intro c hc
        rw [List.mem_reverse] at hc
        exact hall c (by rw [hr0]; exact hc)
  | true =>
    rw [hany] at h1
    rw [if_pos rfl] at h1
    right; right
    have hX0 : (cs.reverse.dropWhile (fun c : Char => c ≠ '/')).dropWhile
        (fun c : Char => c = '/') ≠ [] := by
      intro h0
      rw [List.dropWhile_eq_nil_iff] at h0
      rcases List.any_eq_true.mp hany with ⟨x, hx, hpx⟩
      exact absurd (of_decide_eq_true (h0 x hx)) (of_decide_eq_true hpx)
    cases hXc : (cs.reverse.dropWhile (fun c : Char => c ≠ '/')).dropWhile
        (fun c : Char => c = '/') with
    | nil => exact absurd hXc hX0
    | cons c rest =>
      refine ⟨c, ?_, ?_⟩
      · rw [h1, hXc, ← List.head?_reverse, List.reverse_reverse]
        rfl
      · have hh : ((cs.reverse.dropWhile (fun c : Char => c ≠ '/')).dropWhile
            (fun c : Char => c = '/')).head? = some c := by
          rw [hXc]; rfl
        have hf := head?_dropWhile_false _ hh
        intro hcc
        rw [hcc] at hf
        simp at hf

theorem splitExt_append (t : List Char) :
    (splitExtChars t).1 ++ (splitExtChars t).2 = t := by
  simp only [splitExtChars]
  cases hany : (t.reverse.dropWhile (fun c : Char => c ≠ '.')).any
      (fun c : Char => c ≠ '.') with
  | false =>
    rw [if_neg Bool.false_ne_true]
    simp
  | true =>
    rw [if_pos rfl]
    show ((t.reverse.dropWhile (fun c : Char => c ≠ '.')).drop 1).reverse ++
      ('.' :: (t.reverse.takeWhile (fun c : Char => c ≠ '.')).reverse) = t
    have hne : t.reverse.dropWhile (fun c : Char => c ≠ '.') ≠ [] := by
      rcases List.any_eq_true.mp hany with ⟨x, hx, _⟩
      intro h0
      rw [h0] at hx
      exact List.not_mem_nil x hx
    have hhead : ∃ rest,
        t.reverse.dropWhile (fun c : Char => c ≠ '.') = '.' :: rest := by
      cases hc : t.reverse.dropWhile (fun c : Char => c ≠ '.') with
      | nil => exact absurd hc hne
      | cons a rest =>
        have hh : (t.reverse.dropWhile (fun c : Char => c ≠ '.')).head? =
            some a := by rw [hc]; rfl
        have hf := head?_dropWhile_false _ hh
        have ha : a = '.' := by simpa using hf
        exact ⟨rest, by rw [ha]⟩
    rcases hhead with ⟨rest, hrest⟩
    rw [hrest]
    simp only [List.drop_succ_cons, List.drop_zero]
    have hta : (t.reverse.takeWhile (fun c : Char => c ≠ '.')) ++
        ('.' :: rest) = t.reverse := by
      rw [← hrest]
      exact List.takeWhile_append_dropWhile _ _
    have h2 := congrArg List.reverse hta
    rw [List.reverse_append, List.reverse_reverse, List.reverse_cons,
      List.append_assoc] at h2
    simpa using h2

theorem splitExt_ext_shape (t : List Char) :
    (splitExtChars t).2 = [] ∨
    ((splitExtChars t).2.head? = some '.' ∧
      ∀ c ∈ (splitExtChars t).2.drop 1, c ≠ '.') := by
  simp only [splitExtChars]
  cases hany : (t.reverse.dropWhile (fun c : Char => c ≠ '.')).any
      (fun c : Char => c ≠ '.') with
  | false =>
    rw [if_neg Bool.false_ne_true]
    left
    rfl
  | true =>
    rw [if_pos rfl]
    right
    constructor
    · rfl
    · intro c hc
      have hc' : c ∈ (t.reverse.takeWhile (fun c : Char => c ≠ '.')).reverse := hc
      rw [List.mem_reverse] at hc'
      have h2 := List.mem_takeWhile_imp hc'
      exact of_decide_eq_true h2

theorem splitExt_no_slash (t : List Char) (h : ∀ c ∈ t, c ≠ '/') :
    (∀ c ∈ (splitExtChars t).1, c ≠ '/') ∧
    (∀ c ∈ (splitExtChars t).2, c ≠ '/') := by
  constructor
  · intro c hc
    apply h c
    rw [← splitExt_append t]
    exact List.mem_append_left _ hc
  · intro c hc
    apply h c
    rw [← splitExt_append t]
    exact List.mem_append_right _ hc

/-- Splitting the path obtained by joining a head produced by
`posixpath.split` with a nonempty slash-free name gives back exactly that
head and that name: the backup lands in the same directory, with the
computed basename. -/
theorem splitPath_join_of_form (h nb : List Char)
    (hform : h = [] ∨ (h ≠ [] ∧ ∀ c ∈ h, c = '/') ∨
      (∃ c, h.getLast? = some c ∧ c ≠ '/'))
    (hnb0 : nb ≠ []) (hnb1 : ∀ c ∈ nb, c ≠ '/') :
    splitPathChars (joinPathChars h nb) = (h, nb) := by
  have hnbhead : ¬ nb.head? = some '/' := by
    cases nb with
    | nil => simp
    | cons a l =>
      simp only [List.head?_cons, Option.some.injEq]
      exact fun hh => hnb1 a (List.mem_cons_self a l) hh
  have hnbrev_all : ∀ c ∈ nb.reverse, decide (c ≠ '/') = true := by
    intro c hc
    rw [List.mem_reverse] at hc
    exact decide_eq_true (hnb1 c hc)
  rcases hform with h0 | ⟨hne, hall⟩ | ⟨c0, hlast, hc0⟩
  · subst h0
    simp only [joinPathChars]
    rw [if_neg hnbhead, if_pos (Or.inl (by trivial)), List.nil_append]
    simp only [splitPathChars]
    rw [takeWhile_all hnbrev_all, dropWhile_all hnbrev_all]
    simp
  · have hlast2 : h.getLast? = some '/' := by
      rw [← List.head?_reverse]
      cases hh : h.reverse with
      | nil => exact absurd (by simpa using hh) hne
      | cons a l =>
        have hmem : a ∈ h := List.mem_reverse.mp
          (by rw [hh]; exact List.mem_cons_self a l)
        rw [hall a hmem]
        rfl
    simp only [joinPathChars]
    rw [if_neg hnbhead, if_pos (Or.inr hlast2)]
    simp only [splitPathChars]
    rw [List.reverse_append]
    have hrev_all_slash : ∀ c ∈ h.reverse, c = '/' :=
      fun c hc => hall c (List.mem_reverse.mp hc)
    have hfail : ∀ c ∈ h.reverse, decide (c ≠ '/') = false := by
      intro c hc
      rw [hrev_all_slash c hc]
      simp
    rw [List.takeWhile_append_of_pos hnbrev_all,
      List.dropWhile_append_of_pos hnbrev_all,
      takeWhile_nil_of_all_false hfail, dropWhile_self_of_all_false hfail]
    have hany_false : h.reverse.any (fun c : Char => c ≠ '/') = false := by
      rw [List.any_eq_false]
      intro x hx
      rw [hrev_all_slash x hx]
      simp
    rw [hany_false]
    simp
  · have hne : h ≠ [] := by
      intro h0
      rw [h0] at hlast
      simp at hlast
    have hcond : ¬(h = [] ∨ h.getLast? = some '/') := by
      rintro (h0 | h0)
      · exact hne h0
      · rw [hlast] at h0
        simp only [Option.some.injEq] at h0
        exact hc0 h0
    simp only [joinPathChars]
    rw [if_neg hnbhead, if_neg hcond]
    simp only [splitPathChars]
    rw [List.reverse_append, List.reverse_cons, List.append_assoc]
    rw [List.takeWhile_append_of_pos hnbrev_all,
      List.dropWhile_append_of_pos hnbrev_all]
    have ht1 : List.takeWhile (fun c : Char => c ≠ '/') ('/' :: h.reverse) = [] := by
      rw [List.takeWhile_cons]
      simp
    have ht2 : List.dropWhile (fun c : Char => c ≠ '/') ('/' :: h.reverse) =
        '/' :: h.reverse := by
      rw [List.dropWhile_cons]
      simp
    rw [show ['/'] ++ h.reverse = '/' :: h.reverse from rfl, ht1, ht2]
    have hrevhead : h.reverse.head? = some c0 := by
      rw [List.head?_reverse]
      exact hlast
    have hmem : c0 ∈ h.reverse := by
      cases hh : h.reverse with
      | nil =>
        rw [hh] at hrevhead
        simp at hrevhead
      | cons a l =>
        rw [hh] at hrevhead
        simp only [List.head?_cons, Option.some.injEq] at hrevhead
        rw [hrevhead]
        exact List.mem_cons_self c0 l
    have hany_true : ('/' :: h.reverse).any (fun c : Char => c ≠ '/') = true := by
      rw [List.any_eq_true]
      exact ⟨c0, List.mem_cons_of_mem _ hmem, decide_eq_true hc0⟩
    have hd1 : List.dropWhile (fun c : Char => c = '/') ('/' :: h.reverse) =
        List.dropWhile (fun c : Char => c = '/') h.reverse := by
      rw [List.dropWhile_cons]
      simp
    have hd2 : List.dropWhile (fun c : Char => c = '/') h.reverse = h.reverse := by
      cases hh : h.reverse with
      | nil => rfl
      | cons a l =>
        have ha : a = c0 := by
          rw [hh] at hrevhead
          simpa using hrevhead
        rw [List.dropWhile_cons, ha]
        simp [hc0]
    rw [hd1, hd2, hany_true]
    simp

theorem splitPath_join_head (cs nb : List Char) (hnb0 : nb ≠ [])
    (hnb1 : ∀ c ∈ nb, c ≠ '/') :
    splitPathChars (joinPathChars (splitPathChars cs).1 nb) =
      ((splitPathChars cs).1, nb) :=
  splitPath_join_of_form _ nb (splitPath_head_form cs) hnb0 hnb1

/-- C4: the backup name is produced by inserting the timestamp token
between the root and the extension of the original basename (and at the
end when there is no extension), and the backup path stays in the same
directory as the original.  Concretely: the directory part of the backup
equals the directory part of the original; the basename of the backup is
`root ++ ts ++ ext` where `root ++ ext` is the original basename; `ext`
is empty or starts with the final dot and contains no further dot; and
`notes.txt` renamed at 2024-01-02 03:04:05 becomes
`notes__20240102030405.txt` while `README` becomes
`README__20240102030405`. -/
theorem c4_backup_name_rule (ts : String)
    (hts0 : ts.toList ≠ []) (hts1 : ∀ c ∈ ts.toList, c ≠ '/') :
    (∀ f : String,
      (splitPathChars (moveFileName ts f).toList).1 =
        (splitPathChars f.toList).1 ∧
      (splitPathChars (moveFileName ts f).toList).2 =
        (splitExtChars (splitPathChars f.toList).2).1 ++ ts.toList ++
        (splitExtChars (splitPathChars f.toList).2).2 ∧
      (splitExtChars (splitPathChars f.toList).2).1 ++
        (splitExtChars (splitPathChars f.toList).2).2 =
        (splitPathChars f.toList).2 ∧
      ((splitExtChars (splitPathChars f.toList).2).2 = [] ∨
        ((splitExtChars (splitPathChars f.toList).2).2.head? = some '.' ∧
          ∀ c ∈ ((splitExtChars (splitPathChars f.toList).2).2).drop 1,
            c ≠ '.'))) ∧
    moveFileName (strftimeToken 2024 1 2 3 4 5) "notes.txt" =
      "notes__20240102030405.txt" ∧
    moveFileName (strftimeToken 2024 1 2 3 4 5) "README" =
      "README__20240102030405" := by
  refine ⟨fun f => ?_, by decide, by decide⟩
  have hnb0 : (splitExtChars (splitPathChars f.toList).2).1 ++ ts.toList ++
      (splitExtChars (splitPathChars f.toList).2).2 ≠ [] := by
    intro h0
    rcases List.append_eq_nil.mp h0 with ⟨h1, _⟩
    rcases List.append_eq_nil.mp h1 with ⟨_, h2⟩
    exact hts0 h2
  have htail := splitPath_tail_no_slash f.toList
  have hparts := splitExt_no_slash (splitPathChars f.toList).2 htail
  have hnb1 : ∀ c ∈ (splitExtChars (splitPathChars f.toList).2).1 ++
      ts.toList ++ (splitExtChars (splitPathChars f.toList).2).2, c ≠ '/' := by
    intro c hc
    rcases List.mem_append.mp hc with hc1 | hc1
    · rcases List.mem_append.mp hc1 with hc2 | hc2
      · exact hparts.1 c hc2
      · exact hts1 c hc2
    · exact hparts.2 c hc1
  have htl : (moveFileName ts f).toList =
      joinPathChars (splitPathChars f.toList).1
        ((splitExtChars (splitPathChars f.toList).2).1 ++ ts.toList ++
          (splitExtChars (splitPathChars f.toList).2).2) :=
    List.toList_asString _
  have hjoin := splitPath_join_head f.toList
    ((splitExtChars (splitPathChars f.toList).2).1 ++ ts.toList ++
      (splitExtChars (splitPathChars f.toList).2).2) hnb0 hnb1
  refine ⟨?_, ?_, splitExt_append _, splitExt_ext_shape _⟩
  · rw [htl, hjoin]
  · rw [htl, hjoin]

/-- Witness for C4 at the run the specification describes: the timestamp
token of 2024-01-02 03:04:05, a file with directory part and extension,
and the two concrete names from the spec. -/
theorem c4_witness :
    ("__20240102030405" : String).toList ≠ [] ∧
    (splitPathChars
        (moveFileName "__20240102030405" "dir/archive.tar.gz").toList).1 =
      (splitPathChars ("dir/archive.tar.gz" : String).toList).1 ∧
    moveFileName (strftimeToken 2024 1 2 3 4 5) "notes.txt" =
      "notes__20240102030405.txt" :=
  ⟨by decide,
   ((c4_backup_name_rule "__20240102030405" (by decide) (by decide)).1
      "dir/archive.tar.gz").1,
   (c4_backup_name_rule "__20240102030405" (by decide) (by decide)).2.1⟩
